import Mathlib

/-!
Shallow embedding of `github_commits_fetcher` (file
`src/github_commits_fetcher/fetcher.py`, class `GitHubCommitsFetcher`).

Modelling conventions:
* Python dicts coming from the GitHub API are modelled as structures holding
  exactly the fields the code reads (`sha`, `url`, `html_url`,
  `commit.author.name`, `commit.author.date`, `commit.message`, `author.login`).
  `commit["author"]` can be JSON `null`, hence `Option String` for the login.
* `self.processed_commits` is a Python `set` of strings, modelled as a
  duplicate-free `List String` mutated only through insert-if-absent
  (`List.insert`), which is exactly the observable behaviour of `set.add` and
  `in`; `self.commits_info` is a Python list, modelled as a Lean list.
* Network effects are passed in as oracles: `fetchDetails` stands for
  `fetch_commit_details` (returning `None` on terminal failure), and the
  pagination oracle `pages` stands for `fetch_commits` (returning `None` on
  terminal failure).  The non-terminating request loops themselves are
  modelled separately over explicit response scripts.
* Thread scheduling of the page worker pool is resolved to explicit
  deterministic schedules (see `process_page_acc` and
  `process_page_snapshot`), each of which is realizable by the
  `ThreadPoolExecutor` / `as_completed` code.
-/

/-- Author subobject `commit["commit"]["author"]` of a listing item. -/
structure CommitAuthor where
  name : String
  date : String
  deriving DecidableEq, Repr

/-- Nested `commit["commit"]` object of a listing item. -/
structure CommitData where
  author : CommitAuthor
  message : String
  deriving DecidableEq, Repr

/-- A listing item as returned by the commits listing endpoint; the fields the
code reads.  `author` is the top-level `commit["author"]`, which is `null`
(`none`) when GitHub cannot associate a user account; otherwise the code reads
its `login` field. -/
structure GithubCommit where
  sha : String
  url : String
  html_url : String
  commit : CommitData
  author : Option String
  deriving DecidableEq, Repr

/-- One changed-file entry of a commit-detail response (`filename`, `patch`). -/
structure DetailFile where
  filename : String
  patch : String
  deriving DecidableEq, Repr

/-- A commit-detail response (`fetch_commit_details` result); the code only
reads its `files` list, and only under the `save_files` option. -/
structure CommitDetail where
  files : List DetailFile
  deriving DecidableEq, Repr

/-- The Normalized Record built by `process_commit` (the dict with keys
"Commit URL", "Author Name", "Author URL", "Commit Date", "Commit Message"). -/
structure CommitInfo where
  commitURL : String
  authorName : String
  authorURL : String
  commitDate : String
  commitMessage : String
  deriving DecidableEq, Repr

/-- The Progress State: `self.commits_info` (list) and
`self.processed_commits` (set, modelled as a duplicate-free list mutated only
by insert-if-absent). -/
structure ProgressState where
  commits_info : List CommitInfo
  processed_commits : List String
  deriving DecidableEq

/-- Python `str.split(sep)` for a one-character separator, on the character
list of the string; `split` always yields a nonempty list. -/
def splitOnChar (sep : Char) : List Char → List (List Char)
  | [] => [[]]
  | c :: cs =>
      let rest := splitOnChar sep cs
      if c = sep then [] :: rest
      else
        match rest with
        | [] => [[c]]
        | g :: gs => (c :: g) :: gs

/-- Python `url.split("/")[-1]`: the last "/"-separated segment of a string
(`split` always yields a nonempty list, so `[-1]` is total). -/
def lastUrlSegment (url : String) : String :=
  String.mk ((splitOnChar '/' url.toList).getLastD [])

/-- The Normalized Record `process_commit` builds from the listing fields of a
commit (fetcher.py lines 165-185): `html_url`, `commit.author.name`, the
profile URL built from `author.login` or the sentinel "N/A" when
`commit["author"]` is null, `commit.author.date`, `commit.message`. -/
def normalizedRecord (c : GithubCommit) : CommitInfo :=
  { commitURL := c.html_url
    authorName := c.commit.author.name
    authorURL :=
      match c.author with
      | some login => "https://github.com/" ++ login
      | none => "N/A"
    commitDate := c.commit.author.date
    commitMessage := c.commit.message }

/-- Embedding of `GitHubCommitsFetcher.process_commit` (fetcher.py lines
160-186).  It reads the shared `processed_commits` set (passed explicitly),
returns `none` when the sha is already processed (skip), otherwise builds the
Normalized Record from the listing fields.  `fetchDetails` is the
`fetch_commit_details` oracle; its result only gates the optional
`save_commit_files` side artifact and does not influence the returned record. -/
def process_commit (processed_commits : List String)
    (fetchDetails : GithubCommit → Option CommitDetail) (c : GithubCommit) :
    Option CommitInfo :=
  if c.sha ∈ processed_commits then
    none
  else
    let _commit_detail_data := fetchDetails c
    some (normalizedRecord c)

/-- Embedding of the body of the `as_completed` merge loop in
`process_commits` (fetcher.py lines 205-211) for one worker result: a `none`
result is skipped; a record is appended to `commits_info` and the last
"/"-segment of its "Commit URL" is added to `processed_commits`. -/
def mergeResult (s : ProgressState) (r : Option CommitInfo) : ProgressState :=
  match r with
  | none => s
  | some commit_info =>
      { commits_info := s.commits_info ++ [commit_info]
        processed_commits :=
          s.processed_commits.insert (lastUrlSegment commit_info.commitURL) }

/-- One item's process-then-merge step: `process_commit` against the current
set, immediately merged by the `as_completed` loop body. -/
def processMergeStep (fetchDetails : GithubCommit → Option CommitDetail)
    (s : ProgressState) (c : GithubCommit) : ProgressState :=
  mergeResult s (process_commit s.processed_commits fetchDetails c)

/-- Page processing under the sequential-visibility schedule (each worker's
dedup check sees all earlier merges of the page): fold of `processMergeStep`
over the page, also returning the list of newly merged records in completion
order.  This is one admissible schedule of the worker pool. -/
def process_page_acc (fetchDetails : GithubCommit → Option CommitDetail)
    (s : ProgressState) : List GithubCommit → ProgressState × List CommitInfo
  | [] => (s, [])
  | c :: cs =>
    match process_commit s.processed_commits fetchDetails c with
    | none => process_page_acc fetchDetails s cs
    | some info =>
        let rest := process_page_acc fetchDetails (mergeResult s (some info)) cs
        (rest.1, info :: rest.2)

/-- Page processing under the snapshot schedule: every worker's dedup check
reads the `processed_commits` set as it was when the page's futures were
submitted, and the main thread merges all results afterwards.  This schedule is
realizable by the code: all futures are submitted before the `as_completed`
loop consumes any result, and with at most five items they can all run to
completion first. -/
def process_page_snapshot (fetchDetails : GithubCommit → Option CommitDetail)
    (s : ProgressState) (page : List GithubCommit) : ProgressState :=
  (page.map (process_commit s.processed_commits fetchDetails)).foldl mergeResult s

/-- The bijection invariant of the Progress State: every identifier in the
processed set has exactly one record whose "Commit URL" ends in it, and every
record's trailing URL segment is in the processed set. -/
def progressInvariant (s : ProgressState) : Prop :=
  (∀ h ∈ s.processed_commits,
      (s.commits_info.filter (fun r => lastUrlSegment r.commitURL == h)).length = 1) ∧
  ∀ r ∈ s.commits_info, lastUrlSegment r.commitURL ∈ s.processed_commits

instance (s : ProgressState) : Decidable (progressInvariant s) :=
  inferInstanceAs (Decidable ((∀ h ∈ s.processed_commits,
      (s.commits_info.filter (fun r => lastUrlSegment r.commitURL == h)).length = 1) ∧
    ∀ r ∈ s.commits_info, lastUrlSegment r.commitURL ∈ s.processed_commits))

/-- The response header data `handle_rate_limit` inspects: status code,
optional X-RateLimit-Remaining, optional X-RateLimit-Reset. -/
structure HttpResponse where
  status : Nat
  rateLimitRemaining : Option Int
  rateLimitReset : Option Int
  deriving DecidableEq, Repr

/-- Embedding of `GitHubCommitsFetcher.handle_rate_limit` (fetcher.py lines
92-104).  Returns `some (retry, slept)` where `retry` is the boolean result and
`slept` the number of seconds spent in `time.sleep` (0 when no sleep occurs);
returns `none` for the uncaught `KeyError` raised when remaining quota is zero
but the reset header is absent. -/
def handle_rate_limit (now : Int) (response : HttpResponse) :
    Option (Bool × Int) :=
  if response.status = 403 then
    match response.rateLimitRemaining with
    | some remaining =>
        if remaining = 0 then
          match response.rateLimitReset with
          | some reset_time =>
              let sleep_time := reset_time - now
              some (true, if 0 < sleep_time then sleep_time else 0)
          | none => none
        else
          some (false, 0)
    | none => some (false, 0)
  else
    some (false, 0)

/-- One observable result of `self.session.get` inside the request loops: a
delivered response together with its JSON body, or a transport-level failure
(`RetryError` / `ConnectionError` after the adapter's bounded retries), which
is a `RequestException` but not an `HTTPError`. -/
inductive SessionResult where
  | resp (r : HttpResponse) (body : List GithubCommit)
  | transportError
  deriving DecidableEq, Repr

/-- Outcome of running a request loop against a finite response script. -/
inductive FetchOutcome where
  | returned (d : List GithubCommit)
  | noData
  | crashed
  | stillLooping
  deriving DecidableEq, Repr

/-- Embedding of the `while True` request loop of
`GitHubCommitsFetcher.fetch_commits` (fetcher.py lines 106-124), driven by a
finite script of session results, one per issued request.  `handle_rate_limit`
returning true means `continue`; `raise_for_status` raises for status >= 400;
the `except` clause re-loops on an `HTTPError` with status 403 and returns
`None` (`noData`) for every other `RequestException`.  `stillLooping` means the
script was exhausted with the loop about to issue yet another request;
`crashed` is the uncaught `KeyError` path of `handle_rate_limit`.
(`fetch_commit_details`, lines 126-142, has the identical loop body.) -/
def fetch_commits_script (now : Int) : List SessionResult → FetchOutcome
  | [] => FetchOutcome.stillLooping
  | SessionResult.transportError :: _ => FetchOutcome.noData
  | SessionResult.resp r body :: rest =>
    match handle_rate_limit now r with
    | none => FetchOutcome.crashed
    | some (true, _) => fetch_commits_script now rest
    | some (false, _) =>
        if 400 ≤ r.status then
          if r.status = 403 then fetch_commits_script now rest
          else FetchOutcome.noData
        else FetchOutcome.returned body

/-- Observable trace events of the pagination loop: a listing fetch for a page
number, a merged record, a checkpoint (`save_progress`), and the fixed
inter-page cooldown (`time.sleep(6)`). -/
inductive Event where
  | fetch (page : Nat)
  | merged (info : CommitInfo)
  | checkpoint (page : Nat)
  | cooldown
  deriving DecidableEq, Repr

/-- Trace events of one successfully processed page: the listing fetch, the
merged records in completion order, the checkpoint write and the cooldown
sleep, in the order the code performs them. -/
def pageBlock (page : Nat) (ms : List CommitInfo) : List Event :=
  Event.fetch page :: (ms.map Event.merged ++ [Event.checkpoint page, Event.cooldown])

/-- Concatenation of consecutive page blocks starting at a given page
number. -/
def pageBlocks (start : Nat) : List (List CommitInfo) → List Event
  | [] => []
  | ms :: rest => pageBlock start ms ++ pageBlocks (start + 1) rest

/-- The sentinel test of fetcher.py lines 213-215: with a configured
`commit_hash_end`, true when any item of the page's data has that sha. -/
def sentinelFound (commit_hash_end : Option String)
    (data : List GithubCommit) : Bool :=
  match commit_hash_end with
  | some h => data.any (fun c => c.sha == h)
  | none => false

/-- Embedding of the `while not all_commits_fetched` loop of
`GitHubCommitsFetcher.process_commits` (fetcher.py lines 188-223), with fuel
bounding the number of iterations.  Per iteration: fetch the page (the `pages`
oracle stands for `fetch_commits`; `none` is a terminal fetch failure); a
falsy result (`None` or the empty list) breaks out before any save; otherwise
the page is processed, its results merged, the sentinel is tested, the page
counter advances, `save_progress` runs (the checkpoint event) and the cooldown
sleep runs, after which the loop either exits (sentinel found) or fetches the
next page.  Returns the final state and the event trace. -/
def process_commits_loop (fetchDetails : GithubCommit → Option CommitDetail)
    (pages : Nat → Option (List GithubCommit)) (commit_hash_end : Option String) :
    Nat → Nat → ProgressState → ProgressState × List Event
  | 0, _, s => (s, [])
  | fuel + 1, page, s =>
    match pages page with
    | none => (s, [Event.fetch page])
    | some data =>
      if data.isEmpty then (s, [Event.fetch page])
      else
        let res := process_page_acc fetchDetails s data
        let evs := pageBlock page res.2
        if sentinelFound commit_hash_end data then
          (res.1, evs)
        else
          let rest :=
            process_commits_loop fetchDetails pages commit_hash_end fuel (page + 1) res.1
          (rest.1, evs ++ rest.2)

/-- The pagination loop started at page 1 (fetcher.py line 192). -/
def process_commits (fetchDetails : GithubCommit → Option CommitDetail)
    (pages : Nat → Option (List GithubCommit)) (commit_hash_end : Option String)
    (fuel : Nat) (s : ProgressState) : ProgressState × List Event :=
  process_commits_loop fetchDetails pages commit_hash_end fuel 1 s

/-- Page numbers of the fetch events of a trace. -/
def fetchedPage : Event → Option Nat
  | Event.fetch p => some p
  | _ => none

/-- The sequence of page numbers for which a listing fetch was issued. -/
def fetchedPages (tr : List Event) : List Nat :=
  tr.filterMap fetchedPage

/-- Minimal JSON string literal printer (escaping backslash and quote), for
the `json.dump` serialization model. -/
def jsonString (s : String) : String :=
  "\"" ++
    String.join (s.toList.map (fun ch =>
      if ch = '\\' then "\\\\" else if ch = '\"' then "\\\"" else String.singleton ch)) ++
    "\""

/-- JSON array printer with `json.dump` default separators. -/
def jsonArray (elems : List String) : String :=
  "[" ++ String.intercalate ", " elems ++ "]"

/-- Serialization of one Normalized Record as the dict written by
`save_progress`. -/
def jsonOfCommitInfo (r : CommitInfo) : String :=
  "\x7b\"Commit URL\": " ++ jsonString r.commitURL ++
  ", \"Author Name\": " ++ jsonString r.authorName ++
  ", \"Author URL\": " ++ jsonString r.authorURL ++
  ", \"Commit Date\": " ++ jsonString r.commitDate ++
  ", \"Commit Message\": " ++ jsonString r.commitMessage ++ "\x7d"

/-- Serialization of the Progress State as written by `save_progress`
(fetcher.py lines 82-90): `json.dump` of the dict with the record list and
`list(self.processed_commits)`.  Python's set enumeration order is
unspecified; the model enumerates the set in its list representation, one
admissible order. -/
def jsonOfProgress (s : ProgressState) : String :=
  "\x7b\"commits_info\": " ++ jsonArray (s.commits_info.map jsonOfCommitInfo) ++
  ", \"processed_commits\": " ++
  jsonArray (s.processed_commits.map jsonString) ++ "\x7d"

/-- Crash-observable contents of the progress file during `save_progress`
(fetcher.py lines 82-90).  The code opens the file with mode "w" — which
truncates it in place — and then writes the serialization sequentially, so a
process crash can expose the old complete content (crash before the open) or
any prefix of the new serialization (crash after writing `i` of its
characters, including `i = 0` right after the truncating open). -/
def save_progress_crash_states (oldContent : String) (s : ProgressState) :
    List String :=
  oldContent ::
    (List.range ((jsonOfProgress s).toList.length + 1)).map
      (fun i => String.mk ((jsonOfProgress s).toList.take i))

/-! Concrete fixtures used by witnesses and counterexamples. -/

/-- Detail-fetch oracle that fails terminally for every commit
(`fetch_commit_details` returning `None` once the transport retry budget is
exhausted). -/
def noDetails : GithubCommit → Option CommitDetail := fun _ => none

/-- The Progress State of a fresh run (no progress file on disk). -/
def emptyState : ProgressState := { commits_info := [], processed_commits := [] }

/-- A commit whose `html_url` ends in its sha, as GitHub's API produces. -/
def failCommit : GithubCommit :=
  { sha := "abc"
    url := "https://api.github.com/repos/o/r/commits/abc"
    html_url := "https://github.com/o/r/commit/abc"
    commit := { author := { name := "Ada", date := "2024-01-01T00:00:00Z" }, message := "m1" }
    author := some "ada" }

/-- A commit whose top-level `author` field is JSON null. -/
def noAuthorCommit : GithubCommit :=
  { sha := "bcd"
    url := "https://api.github.com/repos/o/r/commits/bcd"
    html_url := "https://github.com/o/r/commit/bcd"
    commit := { author := { name := "Bo", date := "2024-01-02T00:00:00Z" }, message := "m2" }
    author := none }

/-- A commit whose `html_url` does not end in its sha. -/
def mismatchCommit : GithubCommit :=
  { sha := "aaa"
    url := "https://api.github.com/repos/o/r/commits/aaa"
    html_url := "https://github.com/o/r/commit/bbb"
    commit := { author := { name := "Cy", date := "2024-01-03T00:00:00Z" }, message := "m3" }
    author := some "cy" }

/-- A commit with sha "aaa" whose `html_url` ends in its sha, used as a page-2
sentinel. -/
def sentinelCommit : GithubCommit :=
  { sha := "aaa"
    url := "https://api.github.com/repos/o/r/commits/aaa"
    html_url := "https://github.com/o/r/commit/aaa"
    commit := { author := { name := "Cy", date := "2024-01-03T00:00:00Z" }, message := "m3" }
    author := some "cy" }

/-- A 403 response with no X-RateLimit-Remaining header (for example a
secondary rate limit or a permissions error). -/
def plain403 : HttpResponse :=
  { status := 403, rateLimitRemaining := none, rateLimitReset := none }

/-- A quota-exhausted 403 response: remaining 0, reset at epoch 100. -/
def quota403 : HttpResponse :=
  { status := 403, rateLimitRemaining := some 0, rateLimitReset := some 100 }

/-- A two-page pagination oracle: page 1 holds one commit, page 2 holds the
sentinel commit followed by a further item, later pages fail. -/
def demoPages : Nat → Option (List GithubCommit)
  | 1 => some [failCommit]
  | 2 => some [sentinelCommit, noAuthorCommit]
  | _ => none

/-- A durable progress-file content from a previous completed save. -/
def prevState : ProgressState :=
  { commits_info := [normalizedRecord failCommit], processed_commits := ["abc"] }

/-! Helper lemmas shared by the claim theorems. -/

/-- The skip guard of `process_commit` fires exactly on the shas already in
the processed set. -/
theorem process_commit_eq_none_iff (processed_commits : List String)
    (fetchDetails : GithubCommit → Option CommitDetail) (c : GithubCommit) :
    process_commit processed_commits fetchDetails c = none ↔
      c.sha ∈ processed_commits := by
  unfold process_commit
  split <;> simp [*]

/-- An unprocessed sha means `process_commit` produces the Normalized Record
built from the listing fields, whatever the detail fetch does. -/
theorem process_commit_eq_some (processed_commits : List String)
    (fetchDetails : GithubCommit → Option CommitDetail) (c : GithubCommit)
    (hnew : c.sha ∉ processed_commits) :
    process_commit processed_commits fetchDetails c = some (normalizedRecord c) := by
  unfold process_commit
  simp [hnew]

/-- An already-processed sha makes the process-then-merge step a no-op. -/
theorem processMergeStep_of_mem (fetchDetails : GithubCommit → Option CommitDetail)
    (s : ProgressState) (c : GithubCommit) (hmem : c.sha ∈ s.processed_commits) :
    processMergeStep fetchDetails s c = s := by
  have hnone := (process_commit_eq_none_iff s.processed_commits fetchDetails c).mpr hmem
  unfold processMergeStep
  rw [hnone]
  rfl

/-- A fresh sha makes the process-then-merge step append the Normalized
Record and insert the trailing URL segment. -/
theorem processMergeStep_of_not_mem (fetchDetails : GithubCommit → Option CommitDetail)
    (s : ProgressState) (c : GithubCommit) (hnew : c.sha ∉ s.processed_commits) :
    processMergeStep fetchDetails s c =
      { commits_info := s.commits_info ++ [normalizedRecord c]
        processed_commits := s.processed_commits.insert (lastUrlSegment c.html_url) } := by
  have hsome := process_commit_eq_some s.processed_commits fetchDetails c hnew
  unfold processMergeStep
  rw [hsome]
  rfl

/-- Sequential page processing unfolds item by item through
`processMergeStep`. -/
theorem process_page_acc_fst_cons (fetchDetails : GithubCommit → Option CommitDetail)
    (s : ProgressState) (c : GithubCommit) (cs : List GithubCommit) :
    (process_page_acc fetchDetails s (c :: cs)).1 =
      (process_page_acc fetchDetails (processMergeStep fetchDetails s c) cs).1 := by
  cases h : process_commit s.processed_commits fetchDetails c with
  | none => simp [process_page_acc, h, processMergeStep, mergeResult]
  | some info => simp [process_page_acc, h, processMergeStep, mergeResult]

/-! Claim C1 -/

/-- C1 counterexample: a commit whose detail fetch fails terminally
(`noDetails` always returns `None`) is not dropped — after the page merge its
Normalized Record is in `commits_info` and its identifier is in
`processed_commits`, contradicting the claim at this concrete input. -/
theorem c1_counterexample :
    noDetails failCommit = none ∧
    (process_page_acc noDetails emptyState [failCommit]).1.commits_info =
      [normalizedRecord failCommit] ∧
    failCommit.sha ∈ (process_page_acc noDetails emptyState [failCommit]).1.processed_commits := by
  decide

/-- C1 (amended): a terminal detail-fetch failure does not drop the item.
`process_commit` builds the Normalized Record from the listing fields alone,
so the record is still appended to `commits_info` and the trailing segment of
its URL is still added to `processed_commits`; only the optional save-files
artifact is skipped. -/
theorem c1_theorem (fetchDetails : GithubCommit → Option CommitDetail)
    (s : ProgressState) (c : GithubCommit)
    (_hfail : fetchDetails c = none) (hnew : c.sha ∉ s.processed_commits) :
    (process_page_acc fetchDetails s [c]).1.commits_info =
      s.commits_info ++ [normalizedRecord c] ∧
    lastUrlSegment c.html_url ∈
      (process_page_acc fetchDetails s [c]).1.processed_commits := by
  have hsome := process_commit_eq_some s.processed_commits fetchDetails c hnew
  refine ⟨?_, ?_⟩ <;>
    simp [process_page_acc, hsome, mergeResult, normalizedRecord, List.mem_insert_iff]

/-- C1 witness: the amended theorem applied to the fixture commit under the
always-failing detail oracle, starting from the fresh state. -/
theorem c1_witness :
    (process_page_acc noDetails emptyState [failCommit]).1.commits_info =
      emptyState.commits_info ++ [normalizedRecord failCommit] ∧
    lastUrlSegment failCommit.html_url ∈
      (process_page_acc noDetails emptyState [failCommit]).1.processed_commits :=
  c1_theorem noDetails emptyState failCommit (by decide) (by decide)

/-! Claim C3 -/

/-- C3 counterexample: the record/merge step is not idempotent for an item
whose `html_url` does not end in its sha — the second call appends a second
copy of the record, because the skip check compares the sha against the set
while the merge recorded the URL's trailing segment. -/
theorem c3_counterexample :
    processMergeStep noDetails
        (processMergeStep noDetails emptyState mismatchCommit) mismatchCommit ≠
      processMergeStep noDetails emptyState mismatchCommit := by
  decide

/-- C3 (amended): the record/merge step is idempotent for every item whose
`html_url` ends in its sha (as GitHub's listing data satisfies): the second
call finds the sha in the processed set, returns no record, and leaves the
Progress State unchanged. -/
theorem c3_theorem (fetchDetails : GithubCommit → Option CommitDetail)
    (s : ProgressState) (c : GithubCommit)
    (hurl : lastUrlSegment c.html_url = c.sha) :
    processMergeStep fetchDetails (processMergeStep fetchDetails s c) c =
      processMergeStep fetchDetails s c := by
  by_cases hmem : c.sha ∈ s.processed_commits
  · rw [processMergeStep_of_mem fetchDetails s c hmem,
      processMergeStep_of_mem fetchDetails s c hmem]
  · apply processMergeStep_of_mem
    rw [processMergeStep_of_not_mem fetchDetails s c hmem]
    rw [hurl]
    exact List.mem_insert_self _ _

/-- C3 witness: the amended theorem applied to the fixture commit (whose URL
ends in its sha) from the fresh state. -/
theorem c3_witness :
    processMergeStep noDetails
        (processMergeStep noDetails emptyState failCommit) failCommit =
      processMergeStep noDetails emptyState failCommit :=
  c3_theorem noDetails emptyState failCommit (by decide)

/-! Claim C8 -/

/-- C8 counterexample: for a commit whose author field is absent the produced
record's author-profile-URL is the sentinel "N/A", not "unknown". -/
theorem c8_counterexample :
    noAuthorCommit.author = none ∧
    (process_commit [] noDetails noAuthorCommit).map CommitInfo.authorURL = some "N/A" ∧
    "N/A" ≠ "unknown" := by
  decide

/-- C8 (amended): every record produced by `process_commit` has the shape
(html_url, author display name, author profile URL or the sentinel "N/A",
the listing's timestamp string, message); for an absent author field the
author-profile-URL is "N/A". -/
theorem c8_theorem (processed_commits : List String)
    (fetchDetails : GithubCommit → Option CommitDetail) (c : GithubCommit)
    (r : CommitInfo) (h : process_commit processed_commits fetchDetails c = some r) :
    r.commitURL = c.html_url ∧ r.authorName = c.commit.author.name ∧
    r.commitDate = c.commit.author.date ∧ r.commitMessage = c.commit.message ∧
    (∀ login, c.author = some login → r.authorURL = "https://github.com/" ++ login) ∧
    (c.author = none → r.authorURL = "N/A") := by
  have hr : r = normalizedRecord c := by
    unfold process_commit at h
    split at h
    · exact absurd h (by simp)
    · simpa using h.symm
  subst hr
  cases hauth : c.author <;> simp [normalizedRecord, hauth]

/-- C8 witness: the amended theorem applied to the fixture commit with a null
author field. -/
theorem c8_witness :
    (normalizedRecord noAuthorCommit).commitURL = noAuthorCommit.html_url ∧
    (normalizedRecord noAuthorCommit).authorName = noAuthorCommit.commit.author.name ∧
    (normalizedRecord noAuthorCommit).commitDate = noAuthorCommit.commit.author.date ∧
    (normalizedRecord noAuthorCommit).commitMessage = noAuthorCommit.commit.message ∧
    (∀ login, noAuthorCommit.author = some login →
      (normalizedRecord noAuthorCommit).authorURL = "https://github.com/" ++ login) ∧
    (noAuthorCommit.author = none → (normalizedRecord noAuthorCommit).authorURL = "N/A") :=
  c8_theorem [] noDetails noAuthorCommit (normalizedRecord noAuthorCommit) (by decide)

/-! Claim C10 -/

/-- C10: after merging a fresh item, the identifier recorded in
`processed_commits` is the trailing "/"-segment of the record's "Commit URL"
(the `html_url`), and the skip check on the item's sha agrees with what was
recorded exactly when the `html_url` ends in the sha. -/
theorem c10_theorem (fetchDetails : GithubCommit → Option CommitDetail)
    (s : ProgressState) (c : GithubCommit) (hnew : c.sha ∉ s.processed_commits) :
    (processMergeStep fetchDetails s c).processed_commits =
      s.processed_commits.insert (lastUrlSegment c.html_url) ∧
    (c.sha ∈ (processMergeStep fetchDetails s c).processed_commits ↔
      lastUrlSegment c.html_url = c.sha) ∧
    (process_commit (processMergeStep fetchDetails s c).processed_commits fetchDetails c = none ↔
      lastUrlSegment c.html_url = c.sha) := by
  have hset : (processMergeStep fetchDetails s c).processed_commits =
      s.processed_commits.insert (lastUrlSegment c.html_url) := by
    rw [processMergeStep_of_not_mem fetchDetails s c hnew]
  have hmemiff : c.sha ∈ (processMergeStep fetchDetails s c).processed_commits ↔
      lastUrlSegment c.html_url = c.sha := by
    rw [hset]
    simp only [List.mem_insert_iff]
    constructor
    · rintro (h | h)
      · exact h.symm
      · exact absurd h hnew
    · intro h
      exact Or.inl h.symm
  exact ⟨hset, hmemiff,
    (process_commit_eq_none_iff _ fetchDetails c).trans hmemiff⟩

/-- C10 witness: the theorem applied to the fixture commit from the fresh
state. -/
theorem c10_witness :
    (processMergeStep noDetails emptyState failCommit).processed_commits =
      emptyState.processed_commits.insert (lastUrlSegment failCommit.html_url) ∧
    (failCommit.sha ∈ (processMergeStep noDetails emptyState failCommit).processed_commits ↔
      lastUrlSegment failCommit.html_url = failCommit.sha) ∧
    (process_commit (processMergeStep noDetails emptyState failCommit).processed_commits
        noDetails failCommit = none ↔
      lastUrlSegment failCommit.html_url = failCommit.sha) :=
  c10_theorem noDetails emptyState failCommit (by decide)

/-! Claim C2 -/

/-- C2 counterexample: under the snapshot schedule — all of a page's workers
pass the dedup check before the main thread merges any result, a schedule the
executor admits — a page carrying the same commit twice yields two records for
one identifier, violating the bijection invariant after the page merge. -/
theorem c2_counterexample :
    ¬ progressInvariant (process_page_snapshot noDetails emptyState [failCommit, failCommit]) := by
  decide

/-- One process-then-merge step preserves the bijection invariant when the
item's `html_url` ends in its sha. -/
theorem progressInvariant_step (fetchDetails : GithubCommit → Option CommitDetail)
    (s : ProgressState) (c : GithubCommit)
    (hinv : progressInvariant s) (hurl : lastUrlSegment c.html_url = c.sha) :
    progressInvariant (processMergeStep fetchDetails s c) := by
  by_cases hmem : c.sha ∈ s.processed_commits
  · rwa [processMergeStep_of_mem fetchDetails s c hmem]
  · rw [processMergeStep_of_not_mem fetchDetails s c hmem]
    obtain ⟨h1, h2⟩ := hinv
    have hrseg : lastUrlSegment (normalizedRecord c).commitURL = c.sha := by
      simpa [normalizedRecord] using hurl
    constructor
    · intro id hid
      simp only [hurl] at hid
      rcases List.mem_insert_iff.mp hid with rfl | hidp
      · have hfl : s.commits_info.filter
            (fun r => lastUrlSegment r.commitURL == c.sha) = [] := by
          rw [List.filter_eq_nil_iff]
          intro x hx
          simp only [beq_iff_eq]
          intro hbx
          exact hmem (hbx ▸ h2 x hx)
        simp [List.filter_append, hfl, hrseg]
      · have hne : c.sha ≠ id := fun he => hmem (he ▸ hidp)
        have hone := h1 id hidp
        simp [List.filter_append, hrseg, hne, hone]
    · intro x hx
      rcases List.mem_append.mp hx with hxl | hxr
      · exact List.mem_insert_iff.mpr (Or.inr (h2 x hxl))
      · have hx' : x = normalizedRecord c := by simpa using hxr
        subst hx'
        rw [hrseg, hurl]
        exact List.mem_insert_self _ _

/-- C2 (amended): after a page merge in which every worker's dedup check sees
the merges made before it (the sequential-visibility schedule), the bijection
invariant is preserved, provided every item's `html_url` ends in its sha; a
repeated identifier within the page is then absorbed by the skip check.  Under
concurrent checks (snapshot schedule) a repeated identifier within one page
breaks the invariant, as the counterexample shows. -/
theorem c2_theorem (fetchDetails : GithubCommit → Option CommitDetail)
    (s : ProgressState) (page : List GithubCommit)
    (hinv : progressInvariant s)
    (hurl : ∀ c ∈ page, lastUrlSegment c.html_url = c.sha) :
    progressInvariant (process_page_acc fetchDetails s page).1 := by
  induction page generalizing s with
  | nil => simpa [process_page_acc] using hinv
  | cons c cs ih =>
      rw [process_page_acc_fst_cons]
      exact ih (processMergeStep fetchDetails s c)
        (progressInvariant_step fetchDetails s c hinv (hurl c (by simp)))
        (fun x hx => hurl x (by simp [hx]))

/-- C2 witness: the amended theorem applied to a page holding a duplicate of
the fixture commit, from the fresh state. -/
theorem c2_witness :
    progressInvariant
      (process_page_acc noDetails emptyState [failCommit, noAuthorCommit, failCommit]).1 :=
  c2_theorem noDetails emptyState [failCommit, noAuthorCommit, failCommit]
    (by decide) (by decide)

/-! Claim C6 -/

/-- C6: `handle_rate_limit` returns true exactly on a 403 carrying a zero
remaining-quota header; in that case the time slept lands at or past the reset
epoch (and is zero when the reset has already passed); every other response
returns false with no sleep.  The hypothesis restricts to calls that return
(the code raises `KeyError` when remaining is 0 and the reset header is
missing). -/
theorem c6_theorem (now : Int) (response : HttpResponse) (retry : Bool) (slept : Int)
    (h : handle_rate_limit now response = some (retry, slept)) :
    (retry = true ↔ response.status = 403 ∧ response.rateLimitRemaining = some 0) ∧
    (retry = true → 0 ≤ slept ∧
      ∀ reset_time, response.rateLimitReset = some reset_time → reset_time ≤ now + slept) ∧
    (retry = false → slept = 0) := by
  unfold handle_rate_limit at h
  by_cases h403 : response.status = 403
  · rw [if_pos h403] at h
    cases hrem : response.rateLimitRemaining with
    | none =>
        rw [hrem] at h
        injection h with h
        injection h with h1 h2
        subst h1; subst h2
        refine ⟨by simp [h403, hrem], by simp, fun _ => rfl⟩
    | some remaining =>
        rw [hrem] at h
        dsimp only at h
        by_cases h0 : remaining = 0
        · rw [if_pos h0] at h
          cases hreset : response.rateLimitReset with
          | none => rw [hreset] at h; exact absurd h (by simp)
          | some reset_time =>
              rw [hreset] at h
              injection h with h
              injection h with h1 h2
              subst h1
              refine ⟨by simp [h403, hrem, h0], fun _ => ?_, by simp⟩
              constructor
              · subst h2
                split <;> omega
              · intro rt hrt
                injection hrt with hrt
                subst hrt
                subst h2
                split <;> omega
        · rw [if_neg h0] at h
          injection h with h
          injection h with h1 h2
          subst h1; subst h2
          refine ⟨by simp [hrem, h0], by simp, fun _ => rfl⟩
  · rw [if_neg h403] at h
    injection h with h
    injection h with h1 h2
    subst h1; subst h2
    refine ⟨by simp [h403], by simp, fun _ => rfl⟩

/-- C6 witness: the theorem applied to the quota-exhausted fixture response at
now = 40, where the governor reports a retry after sleeping 60 seconds. -/
theorem c6_witness :
    (true = true ↔ quota403.status = 403 ∧ quota403.rateLimitRemaining = some 0) ∧
    (true = true → (0 : Int) ≤ 60 ∧
      ∀ reset_time, quota403.rateLimitReset = some reset_time → reset_time ≤ 40 + 60) ∧
    (true = false → (60 : Int) = 0) :=
  c6_theorem 40 quota403 true 60 (by decide)

/-! Claim C5 -/

/-- C5 counterexample: `save_progress` opens the progress file with mode "w",
which truncates it before any byte of the new serialization is written, so a
crash immediately after the open leaves an empty file — neither the previous
durable content nor the new complete state. -/
theorem c5_counterexample :
    "" ∈ save_progress_crash_states (jsonOfProgress prevState) emptyState ∧
    "" ≠ jsonOfProgress prevState ∧
    "" ≠ jsonOfProgress emptyState := by
  decide

/-- C5 (amended): `save_progress` is not crash-atomic.  Every
crash-observable content of the progress file is either the complete previous
content (crash before the truncating open) or some prefix of the new
serialization, the empty and partial prefixes included; a subsequent load can
therefore observe a truncated file. -/
theorem c5_theorem (oldContent : String) (s : ProgressState) (x : String)
    (hx : x ∈ save_progress_crash_states oldContent s) :
    x = oldContent ∨ ∃ i, i ≤ (jsonOfProgress s).toList.length ∧
      x = String.mk ((jsonOfProgress s).toList.take i) := by
  unfold save_progress_crash_states at hx
  rcases List.mem_cons.mp hx with rfl | hx2
  · exact Or.inl rfl
  · rcases List.mem_map.mp hx2 with ⟨i, hi, rfl⟩
    refine Or.inr ⟨i, ?_, rfl⟩
    have hlt := List.mem_range.mp hi
    omega

/-- C5 witness: the amended theorem applied at the empty crash-observable
content. -/
theorem c5_witness :
    "" = jsonOfProgress prevState ∨ ∃ i, i ≤ (jsonOfProgress emptyState).toList.length ∧
      "" = String.mk ((jsonOfProgress emptyState).toList.take i) :=
  c5_theorem (jsonOfProgress prevState) emptyState "" (by decide)

/-! Claim C9 -/

/-- Responses that are not a quota exhaustion pass through the governor with
no retry signal and no sleep. -/
theorem handle_rate_limit_passthrough (now : Int) (r : HttpResponse)
    (hrem : r.rateLimitRemaining = none ∨
      ∃ k, r.rateLimitRemaining = some k ∧ k ≠ 0) :
    handle_rate_limit now r = some (false, 0) := by
  unfold handle_rate_limit
  by_cases h403 : r.status = 403
  · rw [if_pos h403]
    rcases hrem with hnone | ⟨k, hk, hk0⟩
    · rw [hnone]
    · rw [hk]
      dsimp only
      rw [if_neg hk0]
  · rw [if_neg h403]

/-- C9 counterexample: after ten consecutive 403 responses with no
remaining-quota header — twice the transport retry budget — `fetch_commits`
has not returned a no-data result; it is still re-issuing the same request. -/
theorem c9_counterexample :
    fetch_commits_script 0 (List.replicate 10 (SessionResult.resp plain403 [])) =
      FetchOutcome.stillLooping ∧
    FetchOutcome.stillLooping ≠ FetchOutcome.noData := by
  decide

/-- C9 (amended): `fetch_commits` returns a no-data result for a transport
error and for every persistent non-403 HTTP error, but a persistent 403 that
is not a quota exhaustion (no remaining-quota header, or nonzero remaining
quota) is retried unboundedly: however many such responses arrive, the loop
is still re-issuing the request, so the pagination driver never transitions to
DONE on this path. -/
theorem c9_theorem (now : Int) (r : HttpResponse) (body : List GithubCommit)
    (h403 : r.status = 403)
    (hrem : r.rateLimitRemaining = none ∨
      ∃ k, r.rateLimitRemaining = some k ∧ k ≠ 0) :
    (∀ n, fetch_commits_script now (List.replicate n (SessionResult.resp r body)) =
      FetchOutcome.stillLooping) ∧
    fetch_commits_script now [SessionResult.transportError] = FetchOutcome.noData ∧
    (∀ r2 : HttpResponse, ∀ b2 : List GithubCommit, 400 ≤ r2.status → r2.status ≠ 403 →
      (r2.rateLimitRemaining = none ∨ ∃ k, r2.rateLimitRemaining = some k ∧ k ≠ 0) →
      fetch_commits_script now [SessionResult.resp r2 b2] = FetchOutcome.noData) := by
  refine ⟨?_, rfl, ?_⟩
  · intro n
    induction n with
    | zero => rfl
    | succ m ih =>
        rw [List.replicate_succ]
        unfold fetch_commits_script
        rw [handle_rate_limit_passthrough now r hrem]
        dsimp only
        rw [if_pos (show 400 ≤ r.status by omega), if_pos h403]
        exact ih
  · intro r2 b2 hge hne hrem2
    unfold fetch_commits_script
    rw [handle_rate_limit_passthrough now r2 hrem2]
    dsimp only
    rw [if_pos hge, if_neg hne]

/-- C9 witness: the amended theorem applied to the plain-403 fixture; after
five such responses the loop is still re-issuing the request. -/
theorem c9_witness :
    fetch_commits_script 0 (List.replicate 5 (SessionResult.resp plain403 [])) =
      FetchOutcome.stillLooping :=
  (c9_theorem 0 plain403 [] (by decide) (Or.inl (by decide))).1 5

/-! Claim C7 -/

/-- Merged-record events contribute no fetch events. -/
theorem fetchedPages_merged (ms : List CommitInfo) :
    List.filterMap fetchedPage (ms.map Event.merged) = [] := by
  induction ms with
  | nil => rfl
  | cons m rest ih => simp [fetchedPage, ih]

/-- One page block contributes exactly its own fetch event. -/
theorem fetchedPages_pageBlock (p : Nat) (ms : List CommitInfo) :
    fetchedPages (pageBlock p ms) = [p] := by
  simp [fetchedPages, pageBlock, fetchedPage, List.filterMap_cons, fetchedPages_merged]

/-- Consecutive page blocks contribute consecutive page numbers. -/
theorem fetchedPages_pageBlocks (blocks : List (List CommitInfo)) :
    ∀ start, fetchedPages (pageBlocks start blocks) = List.range' start blocks.length := by
  induction blocks with
  | nil => intro start; rfl
  | cons ms rest ih =>
      intro start
      have happ : fetchedPages (pageBlock start ms ++ pageBlocks (start + 1) rest) =
          fetchedPages (pageBlock start ms) ++ fetchedPages (pageBlocks (start + 1) rest) := by
        simp [fetchedPages]
      rw [pageBlocks, happ, fetchedPages_pageBlock, ih]
      simp only [List.length_cons]
      rw [List.range'_succ]
      rfl

/-- The pagination loop's trace decomposes into consecutive complete page
blocks — fetch, merges, checkpoint, cooldown — optionally followed by one
final fetch with no checkpoint (the terminal failed or empty listing fetch). -/
theorem process_commits_loop_blocks (fetchDetails : GithubCommit → Option CommitDetail)
    (pages : Nat → Option (List GithubCommit)) (commit_hash_end : Option String) :
    ∀ (fuel start : Nat) (s : ProgressState),
      ∃ (blocks : List (List CommitInfo)) (tail : List Event),
        (process_commits_loop fetchDetails pages commit_hash_end fuel start s).2 =
          pageBlocks start blocks ++ tail ∧
        (tail = [] ∨ tail = [Event.fetch (start + blocks.length)]) := by
  intro fuel
  induction fuel with
  | zero => exact fun start s => ⟨[], [], rfl, Or.inl rfl⟩
  | succ f ih =>
      intro start s
      cases hp : pages start with
      | none =>
          refine ⟨[], [Event.fetch start], ?_, Or.inr (by simp)⟩
          simp [process_commits_loop, hp, pageBlocks]
      | some data =>
          by_cases hde : data.isEmpty
          · refine ⟨[], [Event.fetch start], ?_, Or.inr (by simp)⟩
            simp [process_commits_loop, hp, hde, pageBlocks]
          · by_cases hsent : sentinelFound commit_hash_end data = true
            · refine ⟨[(process_page_acc fetchDetails s data).2], [], ?_, Or.inl rfl⟩
              simp [process_commits_loop, hp, hde, hsent, pageBlocks]
            · obtain ⟨bs, tl, htr, htl⟩ :=
                ih (start + 1) (process_page_acc fetchDetails s data).1
              refine ⟨(process_page_acc fetchDetails s data).2 :: bs, tl, ?_, ?_⟩
              · simp [process_commits_loop, hp, hde, hsent, pageBlocks, htr,
                  List.append_assoc]
              · rcases htl with h | h
                · exact Or.inl h
                · right
                  rw [h]
                  simp only [List.cons.injEq, Event.fetch.injEq, and_true,
                    List.length_cons]
                  omega

/-- C7: the trace of `process_commits` is a sequence of complete page blocks
for pages 1, 2, 3, ... — each block merging its page's results and writing the
checkpoint before the next block's listing fetch — optionally closed by one
final checkpoint-less fetch; consequently listing fetches go out for the
consecutive pages 1..k, monotonically, with no backward transition. -/
theorem c7_theorem (fetchDetails : GithubCommit → Option CommitDetail)
    (pages : Nat → Option (List GithubCommit)) (commit_hash_end : Option String)
    (fuel : Nat) (s : ProgressState) :
    ∃ (blocks : List (List CommitInfo)) (tail : List Event),
      (process_commits fetchDetails pages commit_hash_end fuel s).2 =
        pageBlocks 1 blocks ++ tail ∧
      (tail = [] ∨ tail = [Event.fetch (1 + blocks.length)]) ∧
      fetchedPages (process_commits fetchDetails pages commit_hash_end fuel s).2 =
        List.range' 1 (blocks.length + tail.length) := by
  obtain ⟨blocks, tail, htr, htl⟩ :=
    process_commits_loop_blocks fetchDetails pages commit_hash_end fuel 1 s
  refine ⟨blocks, tail, htr, htl, ?_⟩
  have happ : fetchedPages (pageBlocks 1 blocks ++ tail) =
      fetchedPages (pageBlocks 1 blocks) ++ fetchedPages tail := by
    simp [fetchedPages]
  unfold process_commits
  rw [htr, happ, fetchedPages_pageBlocks]
  rcases htl with h | h
  · simp [h, fetchedPages]
  · rw [h]
    have hfp : fetchedPages [Event.fetch (1 + blocks.length)] =
        List.range' (1 + blocks.length) 1 := rfl
    rw [hfp, List.range'_append_1]
    have hlen : ([Event.fetch (1 + blocks.length)] : List Event).length = 1 := rfl
    rw [hlen, Nat.add_comm 1 blocks.length]

/-! Claim C4 -/

/-- With the sentinel absent from the first k pages after `start` and present
on page `start + k` (all of them fetching nonempty), the loop fetches exactly
pages start..start+k and folds each full page into the state. -/
theorem c4_loop (fetchDetails : GithubCommit → Option CommitDetail)
    (pages : Nat → Option (List GithubCommit)) (h : String) :
    ∀ (k fuel start : Nat) (s : ProgressState), k + 1 ≤ fuel →
      (∀ i ≤ k, pages (start + i) ≠ none) →
      (∀ i ≤ k, (pages (start + i)).getD [] ≠ []) →
      (∀ i < k, sentinelFound (some h) ((pages (start + i)).getD []) = false) →
      sentinelFound (some h) ((pages (start + k)).getD []) = true →
      fetchedPages (process_commits_loop fetchDetails pages (some h) fuel start s).2 =
        List.range' start (k + 1) ∧
      (process_commits_loop fetchDetails pages (some h) fuel start s).1 =
        (List.range' start (k + 1)).foldl
          (fun st i => (process_page_acc fetchDetails st ((pages i).getD [])).1) s := by
  intro k
  induction k with
  | zero =>
      intro fuel start s hfuel hsome hne _ hfound
      obtain ⟨f, rfl⟩ : ∃ f, fuel = f + 1 := ⟨fuel - 1, by omega⟩
      have h0 := hsome 0 (Nat.le_refl 0)
      rw [Nat.add_zero] at h0
      obtain ⟨d, hd⟩ := Option.ne_none_iff_exists'.mp h0
      have hdne : d ≠ [] := by
        have hx := hne 0 (Nat.le_refl 0)
        rw [Nat.add_zero, hd] at hx
        simpa using hx
      have hfound0 : sentinelFound (some h) d = true := by
        have hx := hfound
        rw [Nat.add_zero, hd] at hx
        simpa using hx
      cases d with
      | nil => exact absurd rfl hdne
      | cons c cs =>
          have hloop : process_commits_loop fetchDetails pages (some h) (f + 1) start s =
              ((process_page_acc fetchDetails s (c :: cs)).1,
                pageBlock start (process_page_acc fetchDetails s (c :: cs)).2) := by
            simp [process_commits_loop, hd, hfound0]
          constructor
          · rw [hloop]
            simp [fetchedPages_pageBlock, List.range'_one]
          · rw [hloop]
            simp [List.range'_one, hd]
  | succ k ih =>
      intro fuel start s hfuel hsome hne hbefore hfound
      obtain ⟨f, rfl⟩ : ∃ f, fuel = f + 1 := ⟨fuel - 1, by omega⟩
      have h0 := hsome 0 (Nat.zero_le _)
      rw [Nat.add_zero] at h0
      obtain ⟨d, hd⟩ := Option.ne_none_iff_exists'.mp h0
      have hdne : d ≠ [] := by
        have hx := hne 0 (Nat.zero_le _)
        rw [Nat.add_zero, hd] at hx
        simpa using hx
      have hs0 : sentinelFound (some h) d = false := by
        have hx := hbefore 0 (Nat.succ_pos k)
        rw [Nat.add_zero, hd] at hx
        simpa using hx
      obtain ⟨ihf, ihs⟩ := ih f (start + 1) (process_page_acc fetchDetails s d).1 (by omega)
        (fun i hi => by
          have hx := hsome (i + 1) (by omega)
          rwa [show start + (i + 1) = start + 1 + i by omega] at hx)
        (fun i hi => by
          have hx := hne (i + 1) (by omega)
          rwa [show start + (i + 1) = start + 1 + i by omega] at hx)
        (fun i hi => by
          have hx := hbefore (i + 1) (by omega)
          rwa [show start + (i + 1) = start + 1 + i by omega] at hx)
        (by rwa [show start + (k + 1) = start + 1 + k by omega] at hfound)
      cases d with
      | nil => exact absurd rfl hdne
      | cons c cs =>
          have hloop : process_commits_loop fetchDetails pages (some h) (f + 1) start s =
              ((process_commits_loop fetchDetails pages (some h) f (start + 1)
                  (process_page_acc fetchDetails s (c :: cs)).1).1,
                pageBlock start (process_page_acc fetchDetails s (c :: cs)).2 ++
                  (process_commits_loop fetchDetails pages (some h) f (start + 1)
                    (process_page_acc fetchDetails s (c :: cs)).1).2) := by
            simp [process_commits_loop, hd, hs0]
          constructor
          · rw [hloop]
            have happ : fetchedPages
                (pageBlock start (process_page_acc fetchDetails s (c :: cs)).2 ++
                  (process_commits_loop fetchDetails pages (some h) f (start + 1)
                    (process_page_acc fetchDetails s (c :: cs)).1).2) =
                fetchedPages (pageBlock start (process_page_acc fetchDetails s (c :: cs)).2) ++
                  fetchedPages ((process_commits_loop fetchDetails pages (some h) f (start + 1)
                    (process_page_acc fetchDetails s (c :: cs)).1).2) := by
              simp [fetchedPages]
            rw [happ, fetchedPages_pageBlock, ihf, List.range'_succ]
            rfl
          · rw [hloop]
            rw [List.range'_succ, List.foldl_cons]
            rw [hd]
            simp only [Option.getD_some]
            exact ihs

/-- C4: with a configured stop identifier whose sha first appears on page p
(pages 1..p all fetching successfully and nonempty), the harvest issues
listing fetches for exactly the pages 1..p — in particular never for page
p+1 — and the final state folds in every item of each of the pages 1..p,
page p included in full (items listed after the sentinel as well). -/
theorem c4_theorem (fetchDetails : GithubCommit → Option CommitDetail)
    (pages : Nat → Option (List GithubCommit)) (h : String) (p fuel : Nat)
    (s : ProgressState)
    (hp : 1 ≤ p) (hfuel : p ≤ fuel)
    (hsome : ∀ i < p, pages (i + 1) ≠ none)
    (hne : ∀ i < p, (pages (i + 1)).getD [] ≠ [])
    (hbefore : ∀ i < p - 1, sentinelFound (some h) ((pages (i + 1)).getD []) = false)
    (hfound : sentinelFound (some h) ((pages p).getD []) = true) :
    fetchedPages (process_commits fetchDetails pages (some h) fuel s).2 =
      List.range' 1 p ∧
    Event.fetch (p + 1) ∉ (process_commits fetchDetails pages (some h) fuel s).2 ∧
    (process_commits fetchDetails pages (some h) fuel s).1 =
      (List.range' 1 p).foldl
        (fun st i => (process_page_acc fetchDetails st ((pages i).getD [])).1) s := by
  unfold process_commits
  obtain ⟨k, rfl⟩ : ∃ k, p = k + 1 := ⟨p - 1, by omega⟩
  obtain ⟨hfp, hst⟩ := c4_loop fetchDetails pages h k fuel 1 s (by omega)
    (fun i hi => by
      have hx := hsome i (by omega)
      rwa [show i + 1 = 1 + i by omega] at hx)
    (fun i hi => by
      have hx := hne i (by omega)
      rwa [show i + 1 = 1 + i by omega] at hx)
    (fun i hi => by
      have hx := hbefore i (by omega)
      rwa [show i + 1 = 1 + i by omega] at hx)
    (by rwa [show k + 1 = 1 + k by omega] at hfound)
  refine ⟨hfp, ?_, hst⟩
  intro hmem
  have hin : k + 1 + 1 ∈
      fetchedPages (process_commits_loop fetchDetails pages (some h) fuel 1 s).2 := by
    unfold fetchedPages
    exact List.mem_filterMap.mpr ⟨Event.fetch (k + 1 + 1), hmem, rfl⟩
  rw [hfp] at hin
  have hrange := List.mem_range'_1.mp hin
  omega

/-- C4 witness: the theorem applied to the two-page fixture oracle whose
sentinel "aaa" sits first on page 2, followed by one more item. -/
theorem c4_witness :
    fetchedPages (process_commits noDetails demoPages (some "aaa") 5 emptyState).2 =
      List.range' 1 2 ∧
    Event.fetch (2 + 1) ∉ (process_commits noDetails demoPages (some "aaa") 5 emptyState).2 ∧
    (process_commits noDetails demoPages (some "aaa") 5 emptyState).1 =
      (List.range' 1 2).foldl
        (fun st i => (process_page_acc noDetails st ((demoPages i).getD [])).1) emptyState :=
  c4_theorem noDetails demoPages "aaa" 2 5 emptyState (by decide) (by decide)
    (by decide) (by decide) (by decide) (by decide)
